import Mathlib

/-!
# Verification of `nuffield_scraper.py`

A shallow embedding of `src/nuffield_scraper.py` and proofs of the
specification's claims about it.

The program paginates a search API (`fetch_page`), accumulates the per-page
record lists (`main`'s loop), flattens each record over a fixed field list
(`flatten_value` plus the row comprehension in `main`), and writes the rows
to a CSV file with a fixed header (`csv.DictWriter`).

Modelling conventions:
* JSON values are the inductive `Value` below.  Records come out of
  `resp.json()`, so every dictionary key is a string and every value is a
  JSON value.  Non-integer JSON numbers (floating point) are outside the
  model; numbers are modelled by `Int`.
* The page fetcher is an oracle `fetch : Nat → Except String SearchResponse`:
  `Except.error` stands for any exception raised by `fetch_page` (transport
  failure, non-2xx status, malformed body, missing envelope keys).
* `time.sleep` and the progress printing have no observable effect on the
  data flow and are not modelled.
* The output file is modelled by the `Option CsvFile` value `csvOutput`:
  `none` means the program aborted before `open(output_file, "w")` ran, so
  no file was created.  Cell stringification and CSV quoting performed by
  `csv.DictWriter` are not modelled; rows are kept as flattened mappings.
-/

/-- A JSON value, as produced by `resp.json()` in the scraper.  Dictionaries
are association lists in document order (Python dicts preserve insertion
order and, coming from JSON, have string keys).  Non-integer numbers are not
modelled. -/
inductive Value where
  | null : Value
  | bool (b : Bool) : Value
  | int (n : Int) : Value
  | str (s : String) : Value
  | list (xs : List Value) : Value
  | dict (kvs : List (String × Value)) : Value

/-- A raw consultant record: a loosely typed mapping from field name to JSON
value (one element of `records.page`). -/
abbrev Record := List (String × Value)

/-- `rec.get(field)` from `main`: dictionary lookup defaulting to `None`. -/
def dictGet (rec : Record) (f : String) : Value :=
  (List.lookup f rec).getD Value.null

/-- `FIELDS` from `nuffield_scraper.py` lines 19-26: the fields to extract
from each consultant record, in order. -/
def FIELDS : List String :=
  ["id", "fullname", "firstname", "lastname", "title",
   "url", "gender", "specialties", "hospitals", "locations",
   "image", "bookable", "gmcNumber", "professionalQualifications",
   "languages", "offersPaediatrics", "roboticAssistedSurgery",
   "gpReferralRequired", "daysUntilNextAppointment", "availabilityRank",
   "popularity", "updated_at"]

/-- `PER_PAGE` from the scraper. -/
def PER_PAGE : Nat := 100

/-! ## The textual JSON encoding (`json.dumps` with default options)

`flatten_value` calls `json.dumps(v)` with default options: `ensure_ascii`
is true (every character outside `0x20`-`0x7e` is `\uXXXX`-escaped, with a
surrogate pair for code points beyond `0xFFFF`), and the separators are
`", "` and `": "`.  CPython computes the surrogate halves as
`0xd800 | ((m >> 10) & 0x3ff)` and `0xdc00 | (m & 0x3ff)` with
`m = ord(c) - 0x10000`; since `m < 2^20` these equal
`0xd800 + m / 1024` and `0xdc00 + m % 1024`, the form used here. -/
/-- One lowercase hexadecimal digit, `"0123456789abcdef"[n]`. -/
def hexDigit (n : Nat) : Char :=
  Char.ofNat (if n < 10 then 48 + n else 87 + n)

/-- Four lowercase hex digits, CPython's `'\\u{:04x}'.format n` payload. -/
def hex4 (n : Nat) : List Char :=
  [hexDigit (n / 4096 % 16), hexDigit (n / 256 % 16),
   hexDigit (n / 16 % 16), hexDigit (n % 16)]

/-- The escape of one character inside a JSON string literal, following
CPython's `py_encode_basestring_ascii`: backslash, quote and the five named
control characters get two-character escapes, other characters in
`0x20`-`0x7e` stand for themselves, and everything else is `\u`-escaped
(as a surrogate pair above `0xFFFF`). -/
def escapeChar (c : Char) : List Char :=
  if c = '\\' then ['\\', '\\']
  else if c = '"' then ['\\', '"']
  else if c = '\x08' then ['\\', 'b']
  else if c = '\x0c' then ['\\', 'f']
  else if c = '\n' then ['\\', 'n']
  else if c = '\r' then ['\\', 'r']
  else if c = '\t' then ['\\', 't']
  else if 0x20 ≤ c.toNat ∧ c.toNat ≤ 0x7e then [c]
  else if c.toNat < 0x10000 then '\\' :: 'u' :: hex4 c.toNat
  else
    '\\' :: 'u' :: hex4 (0xd800 + (c.toNat - 0x10000) / 1024) ++
      '\\' :: 'u' :: hex4 (0xdc00 + (c.toNat - 0x10000) % 1024)

/-- Escape every character of a string body. -/
def escapeChars : List Char → List Char
  | [] => []
  | c :: cs => escapeChar c ++ escapeChars cs

/-- A JSON string literal: quote, escaped body, quote. -/
def encodeString (cs : List Char) : List Char :=
  '"' :: escapeChars cs ++ ['"']

/-- The decimal digits of a natural number, most significant first
(Python's `repr` of a non-negative `int`). -/
def natDigits (n : Nat) : List Char :=
  if h : n < 10 then [Char.ofNat (48 + n)]
  else natDigits (n / 10) ++ [Char.ofNat (48 + n % 10)]
decreasing_by exact Nat.div_lt_self (by omega) (by omega)

/-- Python's `repr` of an `int`. -/
def encodeInt (n : Int) : List Char :=
  if n < 0 then '-' :: natDigits n.natAbs else natDigits n.toNat

mutual

/-- The characters of `json.dumps v` (default options, see above). -/
def encodeValue : Value → List Char
  | Value.null => ['n', 'u', 'l', 'l']
  | Value.bool true => ['t', 'r', 'u', 'e']
  | Value.bool false => ['f', 'a', 'l', 's', 'e']
  | Value.int n => encodeInt n
  | Value.str s => encodeString s.data
  | Value.list xs => '[' :: encodeItems xs ++ [']']
  | Value.dict kvs => '\x7b' :: encodePairs kvs ++ ['\x7d']

/-- List items joined by the default item separator `", "`. -/
def encodeItems : List Value → List Char
  | [] => []
  | [v] => encodeValue v
  | v :: vs => encodeValue v ++ ',' :: ' ' :: encodeItems vs

/-- Dictionary entries `key: value` joined by `", "`. -/
def encodePairs : List (String × Value) → List Char
  | [] => []
  | [(k, v)] => encodeString k.data ++ ':' :: ' ' :: encodeValue v
  | (k, v) :: kvs =>
      encodeString k.data ++ ':' :: ' ' :: encodeValue v ++
        ',' :: ' ' :: encodePairs kvs

end

/-- `json.dumps v` as a Lean string. -/
def jsonDumps (v : Value) : String :=
  String.mk (encodeValue v)

/-- `flatten_value` from `nuffield_scraper.py` lines 52-56:
lists and dictionaries become their JSON string, `None` becomes the empty
string, every other (scalar) value passes through unchanged. -/
def flatten_value : Value → Value
  | Value.list xs => Value.str (jsonDumps (Value.list xs))
  | Value.dict kvs => Value.str (jsonDumps (Value.dict kvs))
  | Value.null => Value.str ""
  | v => v

/-- The row comprehension in `main` (line 94):
`{field: flatten_value(rec.get(field)) for field in FIELDS}`. -/
def flattenRow (rec : Record) : List (String × Value) :=
  FIELDS.map (fun f => (f, flatten_value (dictGet rec f)))

/-! ## The accumulator (`main`, lines 63-95) -/
/-- `info.page` of a search response envelope. -/
structure PageInfo where
  total_result_count : Nat
  num_pages : Nat

/-- A decoded search response: the envelope counts and `records.page`. -/
structure SearchResponse where
  info : PageInfo
  records : List Record

/-- The records contributed by page `p`: its `records.page` on success and
nothing when the fetch raised (the `except` branch appends nothing). -/
def pageRecs (fetch : Nat → Except String SearchResponse) (p : Nat) :
    List Record :=
  match fetch p with
  | Except.ok d => d.records
  | Except.error _ => []

/-- The concatenation of the surviving records of the given pages, in page
order. -/
def pagesRecords (fetch : Nat → Except String SearchResponse) :
    List Nat → List Record
  | [] => []
  | p :: ps => pageRecs fetch p ++ pagesRecords fetch ps

/-- The loop `for page_num in range(2, num_pages + 1)` of `main`: for each
page index, a successful fetch extends `all_records`, a failure is caught
and skipped.  Returns the appended records and the attempted page list. -/
def scrapeRest (fetch : Nat → Except String SearchResponse) :
    List Nat → List Record × List Nat
  | [] => ([], [])
  | p :: ps =>
    match fetch p with
    | Except.ok d =>
        let r := scrapeRest fetch ps
        (d.records ++ r.1, p :: r.2)
    | Except.error _ =>
        let r := scrapeRest fetch ps
        (r.1, p :: r.2)

/-- The observable outcome of a completed run of `main` up to the CSV write. -/
structure ScrapeResult where
  total : Nat
  num_pages : Nat
  attempted : List Nat
  collected : List Record

/-- `main` up to the CSV write.  The first-page fetch is outside any
`try`, so an error there aborts the run (`none`).  Otherwise the counts are
read from the first response, page 1's records seed `all_records`, and the
loop attempts pages `2 .. num_pages` in order.  Python's
`range(2, num_pages + 1)` is `List.range' 2 (num_pages - 1)`. -/
def runScrape (fetch : Nat → Except String SearchResponse) :
    Option ScrapeResult :=
  match fetch 1 with
  | Except.error _ => none
  | Except.ok first =>
    let r := scrapeRest fetch (List.range' 2 (first.info.num_pages - 1))
    some ⟨first.info.total_result_count, first.info.num_pages,
          1 :: r.2, first.records ++ r.1⟩

/-- The written CSV, as a header plus one flattened row per record
(`csv.DictWriter(f, fieldnames=FIELDS)`, `writeheader`, then `writerow` of
the comprehension for each record, in accumulation order). -/
structure CsvFile where
  header : List String
  rows : List (List (String × Value))

/-- The CSV writing block of `main` (lines 90-95). -/
def writeCsv (records : List Record) : CsvFile :=
  ⟨FIELDS, records.map flattenRow⟩

/-- The output file of a run: created and written only when the run reaches
the write block, i.e. when the first-page fetch succeeded. -/
def csvOutput (fetch : Nat → Except String SearchResponse) :
    Option CsvFile :=
  (runScrape fetch).map (fun r => writeCsv r.collected)

/-- Removal of every binding of a key from a record (used to compare an
explicit `None` entry with an absent one). -/
def removeKey (f : String) (rec : Record) : Record :=
  rec.filter (fun kv => kv.1 != f)

/-- A fetch oracle whose every request raises. -/
def fetchAllFail : Nat → Except String SearchResponse :=
  fun _ => Except.error "ConnectionError"

/-- A response reporting zero pages while carrying a record. -/
def respZero : SearchResponse := ⟨⟨0, 0⟩, [[("id", Value.int 1)]]⟩

/-- An oracle answering every request with `respZero`. -/
def fetchZero : Nat → Except String SearchResponse :=
  fun _ => Except.ok respZero

/-- Page 1 of a two-page run. -/
def respTwoA : SearchResponse :=
  ⟨⟨3, 2⟩, [[("id", Value.int 1)], [("id", Value.int 2)]]⟩

/-- Page 2 of a two-page run. -/
def respTwoB : SearchResponse := ⟨⟨3, 2⟩, [[("id", Value.int 3)]]⟩

/-- An oracle serving exactly two pages. -/
def fetchTwo : Nat → Except String SearchResponse :=
  fun p =>
    if p = 1 then Except.ok respTwoA
    else if p = 2 then Except.ok respTwoB
    else Except.error "no such page"

/-- Page 1 of a three-page run whose middle page fails. -/
def respMidA : SearchResponse := ⟨⟨5, 3⟩, [[("id", Value.int 1)]]⟩

/-- Page 3 of a three-page run whose middle page fails. -/
def respMidC : SearchResponse := ⟨⟨5, 3⟩, [[("id", Value.int 3)]]⟩

/-- An oracle whose page 2 raises while pages 1 and 3 succeed. -/
def fetchMid : Nat → Except String SearchResponse :=
  fun p =>
    if p = 1 then Except.ok respMidA
    else if p = 2 then Except.error "HTTP 500"
    else if p = 3 then Except.ok respMidC
    else Except.error "no such page"

/-- A single empty page, consistent with a reported total of 0. -/
def respEmpty : SearchResponse := ⟨⟨0, 1⟩, []⟩

/-- An oracle answering every request with the empty page. -/
def fetchEmpty : Nat → Except String SearchResponse :=
  fun _ => Except.ok respEmpty

/-! ## The textual JSON decoding (`json.loads`)

The round-trip claim compares `json.loads` applied to the Flattener's
output with the original value, so the decoder is modelled as well.  It
follows CPython's `json.scanner`/`py_scanstring`, restricted to the value
model above: numbers are parsed as integers only (non-integer numbers are
outside the model), and a lone surrogate escape — which Python would keep
as an unpaired surrogate character, a thing a Lean `Char` cannot hold — is
rejected.  Neither restriction is reachable from the encoder's output.
The recursion is bounded by an explicit fuel; `jsonLoads` supplies fuel
`length + 1`, which the proofs show is always sufficient. -/
/-- JSON whitespace, `' \t\n\r'`. -/
def isJsonWs (c : Char) : Bool :=
  c == ' ' || c == '\t' || c == '\n' || c == '\r'

/-- Drop leading JSON whitespace. -/
def skipWs : List Char → List Char
  | [] => []
  | c :: cs => if isJsonWs c then skipWs cs else c :: cs

/-- The value of a hexadecimal digit character. -/
def hexVal (c : Char) : Option Nat :=
  if 48 ≤ c.toNat ∧ c.toNat ≤ 57 then some (c.toNat - 48)
  else if 97 ≤ c.toNat ∧ c.toNat ≤ 102 then some (c.toNat - 87)
  else if 65 ≤ c.toNat ∧ c.toNat ≤ 70 then some (c.toNat - 55)
  else none

/-- Four consecutive hexadecimal digits, as the payload of a `\uXXXX`
escape. -/
def readHex4 : List Char → Option (Nat × List Char)
  | h1 :: h2 :: h3 :: h4 :: rest =>
    match hexVal h1, hexVal h2, hexVal h3, hexVal h4 with
    | some x1, some x2, some x3, some x4 =>
        some (x1 * 4096 + x2 * 256 + x3 * 16 + x4, rest)
    | _, _, _, _ => none
  | _ => none

/-- Decode one escape sequence (the input starts right after a backslash):
the named escapes, `\uXXXX`, and a `\uXXXX\uXXXX` surrogate pair in
`0xd800..0xdbff` then `0xdc00..0xdfff` combined into one code point, as in
`py_scanstring`.  A lone surrogate — which Python would keep as an unpaired
surrogate character, a thing a Lean `Char` cannot hold — is rejected. -/
def decodeEscape : List Char → Option (Char × List Char)
  | [] => none
  | e :: r2 =>
    if e = '"' then some ('"', r2)
    else if e = '\\' then some ('\\', r2)
    else if e = '/' then some ('/', r2)
    else if e = 'b' then some ('\x08', r2)
    else if e = 'f' then some ('\x0c', r2)
    else if e = 'n' then some ('\n', r2)
    else if e = 'r' then some ('\r', r2)
    else if e = 't' then some ('\t', r2)
    else if e = 'u' then
      match readHex4 r2 with
      | none => none
      | some (n, r3) =>
        if n < 0xd800 ∨ 0xdfff < n then some (Char.ofNat n, r3)
        else if n ≤ 0xdbff then
          match r3 with
          | b1 :: u1 :: r4 =>
            if b1 = '\\' ∧ u1 = 'u' then
              match readHex4 r4 with
              | none => none
              | some (n2, r5) =>
                if 0xdc00 ≤ n2 ∧ n2 ≤ 0xdfff then
                  some (Char.ofNat
                    (0x10000 + (n - 0xd800) * 1024 + (n2 - 0xdc00)), r5)
                else none
            else none
          | _ => none
        else none
    else none

/-- The body of a JSON string literal, after the opening quote: returns the
decoded characters and the input after the closing quote, following
`py_scanstring`.  The fuel only bounds the recursion; every step consumes
at least one input character, so callers pass `length + 1`, which is always
enough. -/
def parseStringBody : Nat → List Char → Option (List Char × List Char)
  | 0, _ => none
  | fuel + 1, cs =>
    match cs with
    | [] => none
    | c :: rest =>
      if c = '"' then some ([], rest)
      else if c = '\\' then
        match decodeEscape rest with
        | none => none
        | some (d, r2) =>
            (parseStringBody fuel r2).map (fun p => (d :: p.1, p.2))
      else (parseStringBody fuel rest).map (fun p => (c :: p.1, p.2))

/-- Consume a run of decimal digits, accumulating their value. -/
def parseNatAux (acc : Nat) : List Char → Nat × List Char
  | [] => (acc, [])
  | c :: rest =>
    if c.isDigit then parseNatAux (acc * 10 + (c.toNat - 48)) rest
    else (acc, c :: rest)

/-- A non-negative JSON integer: at least one digit. -/
def parseNat (cs : List Char) : Option (Nat × List Char) :=
  match cs with
  | [] => none
  | c :: rest =>
    if c.isDigit then some (parseNatAux 0 (c :: rest)) else none

/-- One step of the JSON value grammar: `pv`, `pi` and `pp` parse a value,
an item list and an entry list at the next lower fuel. -/
def parseValueF (pv : List Char → Option (Value × List Char))
    (pi : List Char → Option (List Value × List Char))
    (pp : List Char → Option (List (String × Value) × List Char)) :
    List Char → Option (Value × List Char) := fun cs =>
  match cs with
  | [] => none
  | c :: rest =>
    if c = '"' then
      match parseStringBody (rest.length + 1) rest with
      | none => none
      | some (s, r) => some (Value.str (String.mk s), r)
    else if c = '[' then
      match skipWs rest with
      | [] => none
      | c2 :: r2 =>
        if c2 = ']' then some (Value.list [], r2)
        else
          match pi (c2 :: r2) with
          | none => none
          | some (vs, r3) => some (Value.list vs, r3)
    else if c = '\x7b' then
      match skipWs rest with
      | [] => none
      | c2 :: r2 =>
        if c2 = '\x7d' then some (Value.dict [], r2)
        else
          match pp (c2 :: r2) with
          | none => none
          | some (ps, r3) => some (Value.dict ps, r3)
    else if c = 't' then
      match rest with
      | 'r' :: 'u' :: 'e' :: r => some (Value.bool true, r)
      | _ => none
    else if c = 'f' then
      match rest with
      | 'a' :: 'l' :: 's' :: 'e' :: r => some (Value.bool false, r)
      | _ => none
    else if c = 'n' then
      match rest with
      | 'u' :: 'l' :: 'l' :: r => some (Value.null, r)
      | _ => none
    else if c = '-' then
      match parseNat rest with
      | none => none
      | some (n, r) => some (Value.int (-(n : Int)), r)
    else
      match parseNat (c :: rest) with
      | none => none
      | some (n, r) => some (Value.int (n : Int), r)

/-- One step of the item-list grammar of a non-empty JSON array, up to and
past the closing bracket. -/
def parseItemsF (pv : List Char → Option (Value × List Char))
    (pi : List Char → Option (List Value × List Char)) :
    List Char → Option (List Value × List Char) := fun cs =>
  match pv cs with
  | none => none
  | some (v, r) =>
    match skipWs r with
    | [] => none
    | c :: r2 =>
      if c = ',' then
        match pi (skipWs r2) with
        | none => none
        | some (vs, r3) => some (v :: vs, r3)
      else if c = ']' then some ([v], r2)
      else none

/-- One step of the entry-list grammar of a non-empty JSON object, up to
and past the closing brace. -/
def parsePairsF (pv : List Char → Option (Value × List Char))
    (pp : List Char → Option (List (String × Value) × List Char)) :
    List Char → Option (List (String × Value) × List Char) := fun cs =>
  match cs with
  | [] => none
  | c :: rest =>
    if c = '"' then
      match parseStringBody (rest.length + 1) rest with
      | none => none
      | some (k, r1) =>
        match skipWs r1 with
        | [] => none
        | c2 :: r2 =>
          if c2 = ':' then
            match pv (skipWs r2) with
            | none => none
            | some (v, r3) =>
              match skipWs r3 with
              | [] => none
              | c3 :: r4 =>
                if c3 = ',' then
                  match pp (skipWs r4) with
                  | none => none
                  | some (ps, r5) => some ((String.mk k, v) :: ps, r5)
                else if c3 = '\x7d' then some ([(String.mk k, v)], r4)
                else none
          else none
    else none

/-- The three fueled parsers, by recursion on the fuel: each extra unit of
fuel allows one more grammar step. -/
def parsers : Nat →
    ((List Char → Option (Value × List Char)) ×
      (List Char → Option (List Value × List Char)) ×
      (List Char → Option (List (String × Value) × List Char)))
  | 0 => (fun _ => none, fun _ => none, fun _ => none)
  | fuel + 1 =>
    let p := parsers fuel
    (parseValueF p.1 p.2.1 p.2.2, parseItemsF p.1 p.2.1, parsePairsF p.1 p.2.2)

/-- One JSON value, starting at the given input (no leading whitespace).
Fuel bounds the recursion depth. -/
def parseValue (fuel : Nat) : List Char → Option (Value × List Char) :=
  (parsers fuel).1

/-- The comma-separated items of a non-empty JSON array, up to and past the
closing bracket. -/
def parseItems (fuel : Nat) : List Char → Option (List Value × List Char) :=
  (parsers fuel).2.1

/-- The comma-separated entries of a non-empty JSON object, up to and past
the closing brace. -/
def parsePairs (fuel : Nat) :
    List Char → Option (List (String × Value) × List Char) :=
  (parsers fuel).2.2

/-- `json.loads`: skip surrounding whitespace, parse one value, and demand
that the input is exhausted. -/
def jsonLoads (s : String) : Option Value :=
  match parseValue (s.data.length + 1) (skipWs s.data) with
  | none => none
  | some (v, r) => if skipWs r = [] then some v else none

/-- After a complete number the next character must not be a digit (or the
input must end) for the number's parse to stop there. -/
def delimOk : List Char → Bool
  | [] => true
  | c :: _ => !c.isDigit

/-! ## Round-trip lemmas: values -/
mutual

/-- Enough parser fuel for one value. -/
def fuelFor : Value → Nat
  | Value.list vs => 1 + fuelItems vs
  | Value.dict kvs => 1 + fuelPairs kvs
  | _ => 1

/-- Enough parser fuel for an item list. -/
def fuelItems : List Value → Nat
  | [] => 0
  | v :: vs => 1 + fuelFor v + fuelItems vs

/-- Enough parser fuel for an entry list. -/
def fuelPairs : List (String × Value) → Nat
  | [] => 0
  | (_, v) :: kvs => 1 + fuelFor v + fuelPairs kvs

end

/-- A JSON string can hold any collection. -/
def Value.isCollection : Value → Bool
  | Value.list _ => true
  | Value.dict _ => true
  | _ => false

/-! ## Helper lemmas -/
theorem scrapeRest_snd (fetch : Nat → Except String SearchResponse)
    (ps : List Nat) : (scrapeRest fetch ps).2 = ps := by
  induction ps with
  | nil => rfl
  | cons p ps ih =>
    cases h : fetch p <;> simp [scrapeRest, h, ih]

theorem scrapeRest_fst (fetch : Nat → Except String SearchResponse)
    (ps : List Nat) : (scrapeRest fetch ps).1 = pagesRecords fetch ps := by
  induction ps with
  | nil => rfl
  | cons p ps ih =>
    cases h : fetch p <;> simp [scrapeRest, pagesRecords, pageRecs, h, ih]

theorem lookup_map_key (l : List String) (g : String → Value) (f : String) :
    List.lookup f (l.map (fun x => (x, g x))) =
      if f ∈ l then some (g f) else none := by
  induction l with
  | nil => simp
  | cons x xs ih =>
    simp only [List.map_cons, List.lookup]
    by_cases hfx : f = x
    · subst hfx
      simp
    · have hb : (f == x) = false := by simp [hfx]
      simp [hb, hfx, ih]

theorem lookup_removeKey_self (f : String) (rec : Record) :
    List.lookup f (removeKey f rec) = none := by
  induction rec with
  | nil => rfl
  | cons kv rest ih =>
    by_cases h : kv.1 = f
    · have hb : (kv.1 != f) = false := by simp [h]
      simpa [removeKey, List.filter_cons, hb] using ih
    · have hb : (kv.1 != f) = true := by simp [h]
      have hb2 : (f == kv.1) = false := by simp [Ne.symm h]
      simp only [removeKey, List.filter_cons, hb, if_pos]
      simpa [List.lookup, hb2, removeKey] using ih

theorem lookup_removeKey_ne (f g : String) (rec : Record) (h : g ≠ f) :
    List.lookup g (removeKey f rec) = List.lookup g rec := by
  induction rec with
  | nil => rfl
  | cons kv rest ih =>
    by_cases hk : kv.1 = f
    · have hb : (kv.1 != f) = false := by simp [hk]
      have hg : (g == kv.1) = false := by simp [hk, h]
      simp only [removeKey, List.filter_cons, hb, if_neg, Bool.false_eq_true,
        not_false_iff, List.lookup, hg]
      simpa [removeKey] using ih
    · have hb : (kv.1 != f) = true := by simp [hk]
      by_cases hg : g = kv.1
      · simp [removeKey, List.filter_cons, hb, List.lookup, hg]
      · have hg2 : (g == kv.1) = false := by simp [hg]
        simp only [removeKey, List.filter_cons, hb, if_pos, List.lookup, hg2]
        simpa [removeKey] using ih

/-! ## Claims about the Record Flattener -/
/-- Claim C10: the value flattener is idempotent: applying `flatten_value`
to its own output returns that output unchanged, for every JSON value. -/
theorem flatten_value_idempotent (v : Value) :
    flatten_value (flatten_value v) = flatten_value v := by
  cases v <;> rfl

/-- Claim C7: the Record Flattener is total: for every raw record and every
field name the flattened value is defined — it is either a string (for
lists, dictionaries and `None`) or the looked-up scalar itself — and the
produced row always has one entry per export field.  The embedding is a
pure function, matching the absence of side effects in the source. -/
theorem flatten_total (rec : Record) :
    (flattenRow rec).length = FIELDS.length ∧
      ∀ f : String,
        (∃ s, flatten_value (dictGet rec f) = Value.str s) ∨
          flatten_value (dictGet rec f) = dictGet rec f := by
  constructor
  · simp [flattenRow]
  · intro f
    cases h : dictGet rec f with
    | null => exact Or.inl ⟨"", rfl⟩
    | bool b => exact Or.inr rfl
    | int n => exact Or.inr rfl
    | str s => exact Or.inr rfl
    | list xs => exact Or.inl ⟨jsonDumps (Value.list xs), rfl⟩
    | dict kvs => exact Or.inl ⟨jsonDumps (Value.dict kvs), rfl⟩

/-- Claim C9: an explicit `None` value flattens to the empty string, and a
record holding `None` at a field produces exactly the row produced after
deleting that field: the output cannot distinguish explicit `null` from a
missing field. -/
theorem null_like_missing :
    flatten_value Value.null = Value.str "" ∧
      ∀ (rec : Record) (f : String), List.lookup f rec = some Value.null →
        flattenRow rec = flattenRow (removeKey f rec) := by
  refine ⟨rfl, fun rec f h => ?_⟩
  have hget : ∀ g : String, dictGet (removeKey f rec) g = dictGet rec g := by
    intro g
    by_cases hg : g = f
    · subst hg
      simp [dictGet, h, lookup_removeKey_self]
    · simp [dictGet, lookup_removeKey_ne f g rec hg]
  simp [flattenRow, hget]

/-- Claim C9 witness: a record with an explicit `null` field yields the same
row as the record with that field removed. -/
theorem null_like_missing_witness :
    flattenRow [("id", Value.null), ("fullname", Value.str "A")] =
      flattenRow (removeKey "id" [("id", Value.null), ("fullname", Value.str "A")]) :=
  null_like_missing.2 [("id", Value.null), ("fullname", Value.str "A")] "id" rfl

/-- Claim C2: for every raw record the flattened row's key list is exactly
`FIELDS` (in particular any key outside the export schema is dropped), and
an export field absent from the record maps to the empty string. -/
theorem flattenRow_keys (rec : Record) :
    (flattenRow rec).map Prod.fst = FIELDS ∧
      (∀ f : String, f ∉ FIELDS → List.lookup f (flattenRow rec) = none) ∧
      (∀ f : String, f ∈ FIELDS → List.lookup f rec = none →
        List.lookup f (flattenRow rec) = some (Value.str "")) := by
  refine ⟨?_, fun f hf => ?_, fun f hf habs => ?_⟩
  · simp only [flattenRow, List.map_map]
    exact List.map_id FIELDS
  · rw [flattenRow, lookup_map_key]
    simp [hf]
  · rw [flattenRow, lookup_map_key]
    simp [hf, dictGet, habs, flatten_value]

/-- Claim C2 witness: a record with an extra key and no export keys flattens
to a row whose keys are `FIELDS`, whose `"extra"` key is gone, and whose
`"id"` entry is the empty string. -/
theorem flattenRow_keys_witness :
    (flattenRow [("extra", Value.int 5)]).map Prod.fst = FIELDS ∧
      List.lookup "extra" (flattenRow [("extra", Value.int 5)]) = none ∧
      List.lookup "id" (flattenRow [("extra", Value.int 5)]) =
        some (Value.str "") :=
  ⟨(flattenRow_keys [("extra", Value.int 5)]).1,
   (flattenRow_keys [("extra", Value.int 5)]).2.1 "extra" (by decide),
   (flattenRow_keys [("extra", Value.int 5)]).2.2 "id" (by decide) rfl⟩

/-! ## Claims about the CSV header -/
/-- Claim C5 counterexample: the fixed header does not have 21 column
names — it has 22 (the claim's own column list has 22 entries). -/
theorem header_not_21 : (writeCsv []).header.length ≠ 21 := by decide

/-- Claim C5 (amended): the CSV header row consists of exactly 22 fixed
column names — `id` through `updated_at` — in exactly the source order,
for every record sequence written. -/
theorem header_exact (records : List Record) :
    (writeCsv records).header =
      ["id", "fullname", "firstname", "lastname", "title",
       "url", "gender", "specialties", "hospitals", "locations",
       "image", "bookable", "gmcNumber", "professionalQualifications",
       "languages", "offersPaediatrics", "roboticAssistedSurgery",
       "gpReferralRequired", "daysUntilNextAppointment", "availabilityRank",
       "popularity", "updated_at"] ∧
      (writeCsv records).header.length = 22 :=
  ⟨rfl, rfl⟩

/-! ## Claims about error handling -/
/-- Claim C4: if the page-1 fetch raises, the run aborts: no scrape result
is produced and no output file is created or written. -/
theorem page1_failure_aborts (fetch : Nat → Except String SearchResponse)
    (e : String) (h : fetch 1 = Except.error e) :
    runScrape fetch = none ∧ csvOutput fetch = none := by
  rw [runScrape, h]
  exact ⟨rfl, by rw [csvOutput, runScrape, h]; rfl⟩

/-- Claim C4 witness: under an oracle that raises on page 1, the run aborts
with no output. -/
theorem page1_failure_aborts_witness :
    runScrape fetchAllFail = none ∧ csvOutput fetchAllFail = none :=
  page1_failure_aborts fetchAllFail "ConnectionError" rfl

/-- Characterisation of a run whose first-page fetch succeeds. -/
theorem runScrape_ok (fetch : Nat → Except String SearchResponse)
    (first : SearchResponse) (h : fetch 1 = Except.ok first) :
    runScrape fetch =
      some ⟨first.info.total_result_count, first.info.num_pages,
        1 :: List.range' 2 (first.info.num_pages - 1),
        first.records ++
          pagesRecords fetch (List.range' 2 (first.info.num_pages - 1))⟩ := by
  simp only [runScrape, h, scrapeRest_snd, scrapeRest_fst]

/-- Claim C1 (amended): for every valid first-page response with
`num_pages ≥ 1`, the page count used by the accumulator equals the
response's `info.page.num_pages`, and the run attempts exactly `num_pages`
page fetches — pages `1 .. num_pages`, each exactly once, in increasing
order.  (For `num_pages = 0` the claim fails: the accumulator has already
fetched page 1, see the counterexample.) -/
theorem pages_attempted (fetch : Nat → Except String SearchResponse)
    (first : SearchResponse) (h1 : fetch 1 = Except.ok first)
    (hN : 1 ≤ first.info.num_pages) :
    ∃ r : ScrapeResult, runScrape fetch = some r ∧
      r.num_pages = first.info.num_pages ∧
      r.attempted = List.range' 1 first.info.num_pages ∧
      r.attempted.length = first.info.num_pages ∧
      (∀ k, k ∈ r.attempted ↔ 1 ≤ k ∧ k ≤ first.info.num_pages) ∧
      r.attempted.Nodup ∧
      r.attempted.Pairwise (fun a b => a < b) := by
  have hform : 1 :: List.range' 2 (first.info.num_pages - 1) =
      List.range' 1 first.info.num_pages := by
    obtain ⟨M, hM⟩ := Nat.exists_eq_add_of_le hN
    rw [hM]
    simp [Nat.add_comm 1 M, List.range'_succ]
  refine ⟨_, runScrape_ok fetch first h1, rfl, hform, ?_, ?_, ?_, ?_⟩
  · rw [hform, List.length_range']
  · intro k
    rw [hform, List.mem_range'_1]
    omega
  · rw [hform]
    exact List.nodup_range' 1 first.info.num_pages
  · rw [hform]
    exact List.pairwise_lt_range' 1 first.info.num_pages

/-- Claim C1 counterexample: on a first-page response reporting
`num_pages = 0`, the accumulator still attempts page 1 (that fetch produced
the response), so the attempted pages are `[1]`, not the empty sequence the
claim demands for `num_pages = 0`. -/
theorem pages_attempted_cex :
    ∃ r : ScrapeResult, runScrape fetchZero = some r ∧
      r.num_pages = 0 ∧ r.attempted = [1] ∧ r.attempted.length ≠ 0 :=
  ⟨_, runScrape_ok fetchZero respZero rfl, rfl, rfl, by decide⟩

/-- Claim C1 witness: the two-page oracle attempts exactly pages 1 and 2,
once each, in order. -/
theorem pages_attempted_witness :
    ∃ r : ScrapeResult, runScrape fetchTwo = some r ∧
      r.num_pages = respTwoA.info.num_pages ∧
      r.attempted = List.range' 1 respTwoA.info.num_pages ∧
      r.attempted.length = respTwoA.info.num_pages ∧
      (∀ k, k ∈ r.attempted ↔ 1 ≤ k ∧ k ≤ respTwoA.info.num_pages) ∧
      r.attempted.Nodup ∧
      r.attempted.Pairwise (fun a b => a < b) :=
  pages_attempted fetchTwo respTwoA rfl (by decide)

/-- Claim C3: when the fetch of a page `k` with `1 < k ≤ num_pages` raises,
the run still attempts every later page up to `num_pages`, never retries a
page, collects the records of every successfully fetched page in page order
with the failed pages contributing nothing, and writes exactly those
records' rows to the CSV. -/
theorem page_failure_skips (fetch : Nat → Except String SearchResponse)
    (first : SearchResponse) (k : Nat) (e : String)
    (h1 : fetch 1 = Except.ok first) (hk1 : 1 < k)
    (hkN : k ≤ first.info.num_pages) (hke : fetch k = Except.error e) :
    ∃ r : ScrapeResult, runScrape fetch = some r ∧
      (∀ j, k < j → j ≤ first.info.num_pages → j ∈ r.attempted) ∧
      r.attempted.Nodup ∧
      pageRecs fetch k = [] ∧
      r.collected = first.records ++
        pagesRecords fetch (List.range' 2 (first.info.num_pages - 1)) ∧
      csvOutput fetch = some (writeCsv r.collected) := by
  refine ⟨_, runScrape_ok fetch first h1, ?_, ?_, ?_, rfl, ?_⟩
  · intro j hj1 hj2
    simp only [List.mem_cons, List.mem_range'_1]
    omega
  · rw [List.nodup_cons]
    refine ⟨?_, List.nodup_range' 2 (first.info.num_pages - 1)⟩
    rw [List.mem_range'_1]
    omega
  · rw [pageRecs, hke]
  · rw [csvOutput, runScrape_ok fetch first h1, Option.map_some']

/-- Claim C3 witness: with page 2 of 3 failing, the run still attempts page
3 and writes pages 1 and 3's records only. -/
theorem page_failure_skips_witness :
    ∃ r : ScrapeResult, runScrape fetchMid = some r ∧
      (∀ j, 2 < j → j ≤ respMidA.info.num_pages → j ∈ r.attempted) ∧
      r.attempted.Nodup ∧
      pageRecs fetchMid 2 = [] ∧
      r.collected = respMidA.records ++
        pagesRecords fetchMid (List.range' 2 (respMidA.info.num_pages - 1)) ∧
      csvOutput fetchMid = some (writeCsv r.collected) :=
  page_failure_skips fetchMid respMidA 2 "HTTP 500" rfl (by decide) (by decide) rfl

/-! ## Claim C8: collected records versus the reported total -/
theorem pagesRecords_length (fetch : Nat → Except String SearchResponse)
    (ps : List Nat) :
    (pagesRecords fetch ps).length =
      (ps.map (fun p => (pageRecs fetch p).length)).sum := by
  induction ps with
  | nil => rfl
  | cons p ps ih => simp [pagesRecords, ih]

/-- Splitting a total into page-sized chunks never over-counts: the sum of
`min PER_PAGE (t - i * PER_PAGE)` over `i < M` is at most `t`. -/
theorem sum_min_chunks (M : Nat) :
    ∀ t : Nat,
      ((List.range M).map (fun i => min PER_PAGE (t - i * PER_PAGE))).sum ≤
        t := by
  induction M with
  | zero => intro t; simp
  | succ M ih =>
    intro t
    rw [List.range_succ_eq_map]
    simp only [List.map_cons, List.map_map, List.sum_cons]
    have hcong :
        (List.range M).map
            ((fun i => min PER_PAGE (t - i * PER_PAGE)) ∘ Nat.succ) =
          (List.range M).map
            (fun i => min PER_PAGE (t - PER_PAGE - i * PER_PAGE)) := by
      apply List.map_congr_left
      intro a _
      simp only [Function.comp]
      congr 1
      simp only [PER_PAGE]
      omega
    rw [hcong]
    have := ih (t - PER_PAGE)
    simp only [PER_PAGE] at this ⊢
    omega

/-- Claim C8 (amended): whenever every successfully fetched page `p` carries
at most `min PER_PAGE (total - (p-1) * PER_PAGE)` records — i.e. the page
responses are consistent with the first page's reported total — the number
of records collected, and hence the number of data rows written, does not
exceed the API-reported total.  (Nothing in the code enforces this: an
inconsistent oracle violates the bound, see the counterexample.) -/
theorem collected_le_total (fetch : Nat → Except String SearchResponse)
    (first : SearchResponse) (h1 : fetch 1 = Except.ok first)
    (hlen : ∀ p d, 1 ≤ p → fetch p = Except.ok d →
      d.records.length ≤
        min PER_PAGE
          (first.info.total_result_count - (p - 1) * PER_PAGE)) :
    ∃ r : ScrapeResult, runScrape fetch = some r ∧
      r.collected.length ≤ r.total ∧
      (writeCsv r.collected).rows.length = r.collected.length := by
  refine ⟨_, runScrape_ok fetch first h1, ?_, by simp [writeCsv]⟩
  simp only [List.length_append]
  set t := first.info.total_result_count with ht
  set M := first.info.num_pages - 1 with hM
  have hfirst : first.records.length ≤ min PER_PAGE t := by
    have := hlen 1 first (Nat.le_refl 1) h1
    simpa using this
  have h2 : ∀ p ∈ List.range' 2 M,
      (pageRecs fetch p).length ≤ min PER_PAGE (t - (p - 1) * PER_PAGE) := by
    intro p hp
    have hp2 : 2 ≤ p := (List.mem_range'_1.mp hp).1
    rw [pageRecs]
    cases hf : fetch p with
    | ok d => exact hlen p d (by omega) hf
    | error e => simp
  have h3 : (pagesRecords fetch (List.range' 2 M)).length ≤
      ((List.range' 2 M).map
        (fun p => min PER_PAGE (t - (p - 1) * PER_PAGE))).sum := by
    rw [pagesRecords_length]
    exact List.sum_le_sum h2
  have h4 : ((List.range' 2 M).map
      (fun p => min PER_PAGE (t - (p - 1) * PER_PAGE))).sum =
      ((List.range M).map
        (fun i => min PER_PAGE (t - PER_PAGE - i * PER_PAGE))).sum := by
    rw [List.range'_eq_map_range, List.map_map]
    apply congrArg
    apply List.map_congr_left
    intro a _
    simp only [Function.comp]
    congr 1
    simp only [PER_PAGE]
    omega
  have h5 := sum_min_chunks M (t - PER_PAGE)
  simp only [PER_PAGE] at hfirst h3 h4 h5 ⊢
  omega

/-- Claim C8 counterexample: a first-page response reporting a total of 0
while carrying one record makes the run collect 1 > 0 records — the claim
does not hold for every run, only for API-consistent ones. -/
theorem collected_le_total_cex :
    ∃ r : ScrapeResult, runScrape fetchZero = some r ∧
      r.collected.length > r.total :=
  ⟨_, runScrape_ok fetchZero respZero rfl, by decide⟩

/-- Claim C8 witness: a consistent single-page run collects no more records
than its reported total. -/
theorem collected_le_total_witness :
    ∃ r : ScrapeResult, runScrape fetchEmpty = some r ∧
      r.collected.length ≤ r.total ∧
      (writeCsv r.collected).rows.length = r.collected.length :=
  collected_le_total fetchEmpty respEmpty rfl
    (fun p d _ hd => by
      injection hd with h
      subst h
      exact Nat.zero_le _)

/-! ## Round-trip lemmas: characters and digits -/
theorem char_valid_nat (c : Char) :
    c.toNat < 0xd800 ∨ (0xdfff < c.toNat ∧ c.toNat < 0x110000) := c.valid

theorem isDigit_toNat (c : Char) (h : c.isDigit = true) :
    48 ≤ c.toNat ∧ c.toNat ≤ 57 := by
  simp [Char.isDigit] at h
  exact ⟨h.1, h.2⟩

theorem digit_facts : ∀ k, k < 10 →
    (Char.ofNat (48 + k)).isDigit = true ∧
      (Char.ofNat (48 + k)).toNat = 48 + k := by decide

theorem hexVal_hexDigit : ∀ k, k < 16 → hexVal (hexDigit k) = some k := by
  decide

theorem natDigits_head (n : Nat) :
    ∃ c t, natDigits n = c :: t ∧ c.isDigit = true := by
  induction n using Nat.strong_induction_on with
  | _ n ih =>
    unfold natDigits
    split
    · next h => exact ⟨_, _, rfl, (digit_facts n h).1⟩
    · next h =>
      obtain ⟨c, t, hct, hd⟩ := ih (n / 10) (Nat.div_lt_self (by omega) (by omega))
      exact ⟨c, t ++ [Char.ofNat (48 + n % 10)], by rw [hct]; simp, hd⟩

theorem parseNatAux_stop (acc : Nat) (rest : List Char)
    (h : delimOk rest = true) : parseNatAux acc rest = (acc, rest) := by
  cases rest with
  | nil => rfl
  | cons c t =>
    simp only [delimOk, Bool.not_eq_true'] at h
    simp [parseNatAux, h]

theorem parseNatAux_digits (n : Nat) :
    ∀ acc rest, parseNatAux acc (natDigits n ++ rest) =
      parseNatAux (acc * 10 ^ (natDigits n).length + n) rest := by
  induction n using Nat.strong_induction_on with
  | _ n ih =>
    intro acc rest
    by_cases h : n < 10
    · unfold natDigits
      rw [dif_pos h]
      have hd := digit_facts n h
      simp only [List.cons_append, List.nil_append, List.length_cons,
        List.length_nil, parseNatAux, hd.1, if_pos, hd.2]
      congr 2
      omega
    · conv_lhs => rw [natDigits, dif_neg h]
      conv_rhs => rw [natDigits, dif_neg h]
      rw [List.append_assoc, ih (n / 10) (Nat.div_lt_self (by omega) (by omega))]
      have hd := digit_facts (n % 10) (Nat.mod_lt n (by omega))
      simp only [List.cons_append, List.nil_append, parseNatAux, hd.1,
        if_pos, hd.2, List.length_append, List.length_cons, List.length_nil]
      congr 1
      all_goals try simp
      all_goals rw [pow_succ, ← Nat.mul_assoc]; omega

theorem parseNat_digits (n : Nat) (rest : List Char)
    (h : delimOk rest = true) :
    parseNat (natDigits n ++ rest) = some (n, rest) := by
  obtain ⟨c, t, hct, hd⟩ := natDigits_head n
  rw [hct, List.cons_append, parseNat]
  rw [if_pos hd, ← List.cons_append, ← hct, parseNatAux_digits n 0 rest]
  rw [Nat.zero_mul, Nat.zero_add, parseNatAux_stop n rest h]

/-! ## Round-trip lemmas: strings -/
theorem readHex4_hex4 (n : Nat) (tail : List Char) (h : n < 0x10000) :
    readHex4 (hex4 n ++ tail) = some (n, tail) := by
  have e1 : hexVal (hexDigit (n / 4096 % 16)) = some (n / 4096 % 16) :=
    hexVal_hexDigit _ (Nat.mod_lt _ (by norm_num))
  have e2 : hexVal (hexDigit (n / 256 % 16)) = some (n / 256 % 16) :=
    hexVal_hexDigit _ (Nat.mod_lt _ (by norm_num))
  have e3 : hexVal (hexDigit (n / 16 % 16)) = some (n / 16 % 16) :=
    hexVal_hexDigit _ (Nat.mod_lt _ (by norm_num))
  have e4 : hexVal (hexDigit (n % 16)) = some (n % 16) :=
    hexVal_hexDigit _ (Nat.mod_lt _ (by norm_num))
  have hsum : n / 4096 % 16 * 4096 + n / 256 % 16 * 256 +
      n / 16 % 16 * 16 + n % 16 = n := by omega
  simp only [hex4, List.cons_append, List.nil_append, readHex4,
    e1, e2, e3, e4, hsum]

theorem decode_named (e : Char) (d : Char) (r2 : List Char)
    (h : (e = '"' ∧ d = '"') ∨ (e = '\\' ∧ d = '\\') ∨
      (e = 'b' ∧ d = '\x08') ∨ (e = 'f' ∧ d = '\x0c') ∨
      (e = 'n' ∧ d = '\n') ∨ (e = 'r' ∧ d = '\r') ∨ (e = 't' ∧ d = '\t')) :
    decodeEscape (e :: r2) = some (d, r2) := by
  rcases h with ⟨he, hd⟩ | ⟨he, hd⟩ | ⟨he, hd⟩ | ⟨he, hd⟩ | ⟨he, hd⟩ |
    ⟨he, hd⟩ | ⟨he, hd⟩ <;> subst he <;> subst hd <;> simp [decodeEscape]

theorem decode_u_single (n : Nat) (tail : List Char) (h1 : n < 0x10000)
    (h2 : n < 0xd800 ∨ 0xdfff < n) :
    decodeEscape ('u' :: (hex4 n ++ tail)) = some (Char.ofNat n, tail) := by
  simp [decodeEscape, readHex4_hex4 n tail h1, h2]

theorem decode_u_pair (n n2 : Nat) (tail : List Char)
    (hn1 : 0xd800 ≤ n) (hn2 : n ≤ 0xdbff)
    (hm1 : 0xdc00 ≤ n2) (hm2 : n2 ≤ 0xdfff) :
    decodeEscape ('u' :: (hex4 n ++ '\\' :: 'u' :: (hex4 n2 ++ tail))) =
      some (Char.ofNat (0x10000 + (n - 0xd800) * 1024 + (n2 - 0xdc00)),
        tail) := by
  have h1 : n < 0x10000 := by omega
  have h2 : n2 < 0x10000 := by omega
  have hc1 : ¬(n < 0xd800 ∨ 0xdfff < n) := by omega
  simp [decodeEscape, readHex4_hex4 n _ h1, readHex4_hex4 n2 tail h2,
    hc1, hn2, hm1, hm2]

theorem psb_cons_lit (fuel : Nat) (c : Char) (rest : List Char)
    (h1 : ¬c = '"') (h2 : ¬c = '\\') :
    parseStringBody (fuel + 1) (c :: rest) =
      (parseStringBody fuel rest).map (fun p => (c :: p.1, p.2)) := by
  simp [parseStringBody, h1, h2]

theorem psb_cons_esc (fuel : Nat) (d : Char) (seq rest : List Char)
    (h : decodeEscape seq = some (d, rest)) :
    parseStringBody (fuel + 1) ('\\' :: seq) =
      (parseStringBody fuel rest).map (fun p => (d :: p.1, p.2)) := by
  simp [parseStringBody, h]

/-- Parsing one escaped character prepends exactly that character. -/
theorem psb_escape_step (c : Char) (tail : List Char) (fuel : Nat) :
    parseStringBody (fuel + 1) (escapeChar c ++ tail) =
      (parseStringBody fuel tail).map (fun p => (c :: p.1, p.2)) := by
  by_cases h1 : c = '\\'
  · subst h1
    exact psb_cons_esc fuel _ _ _ (decode_named _ _ _ (by simp))
  by_cases h2 : c = '"'
  · subst h2
    rw [escapeChar]
    simp only [reduceIte]
    exact psb_cons_esc fuel _ _ _ (decode_named _ _ _ (by simp))
  by_cases h3 : c = '\x08'
  · subst h3
    rw [escapeChar]
    simp only [reduceIte]
    exact psb_cons_esc fuel _ _ _ (decode_named _ _ _ (by simp))
  by_cases h4 : c = '\x0c'
  · subst h4
    rw [escapeChar]
    simp only [reduceIte]
    exact psb_cons_esc fuel _ _ _ (decode_named _ _ _ (by simp))
  by_cases h5 : c = '\n'
  · subst h5
    rw [escapeChar]
    simp only [reduceIte]
    exact psb_cons_esc fuel _ _ _ (decode_named _ _ _ (by simp))
  by_cases h6 : c = '\r'
  · subst h6
    rw [escapeChar]
    simp only [reduceIte]
    exact psb_cons_esc fuel _ _ _ (decode_named _ _ _ (by simp))
  by_cases h7 : c = '\t'
  · subst h7
    rw [escapeChar]
    simp only [reduceIte]
    exact psb_cons_esc fuel _ _ _ (decode_named _ _ _ (by simp))
  by_cases h8 : 0x20 ≤ c.toNat ∧ c.toNat ≤ 0x7e
  · rw [escapeChar, if_neg h1, if_neg h2, if_neg h3, if_neg h4, if_neg h5,
      if_neg h6, if_neg h7, if_pos h8]
    exact psb_cons_lit fuel c tail h2 h1
  by_cases h9 : c.toNat < 0x10000
  · rw [escapeChar, if_neg h1, if_neg h2, if_neg h3, if_neg h4, if_neg h5,
      if_neg h6, if_neg h7, if_neg h8, if_pos h9]
    have hcond : c.toNat < 0xd800 ∨ 0xdfff < c.toNat := by
      rcases char_valid_nat c with h | ⟨h, _⟩
      · exact Or.inl h
      · exact Or.inr h
    have hdec := decode_u_single c.toNat tail h9 hcond
    rw [List.cons_append, List.cons_append]
    rw [psb_cons_esc fuel _ _ _ hdec, Char.ofNat_toNat]
  · rw [escapeChar, if_neg h1, if_neg h2, if_neg h3, if_neg h4, if_neg h5,
      if_neg h6, if_neg h7, if_neg h8, if_neg h9]
    have hub : c.toNat < 0x110000 := by
      rcases char_valid_nat c with h | ⟨_, h⟩
      · omega
      · exact h
    have hm20 : c.toNat - 0x10000 < 0x100000 := by omega
    have hdm : (c.toNat - 0x10000) / 1024 ≤ 0x3ff := by omega
    have hmm : (c.toNat - 0x10000) % 1024 ≤ 0x3ff := by
      have := Nat.mod_lt (c.toNat - 0x10000) (y := 1024) (by norm_num)
      omega
    have hdec := decode_u_pair (0xd800 + (c.toNat - 0x10000) / 1024)
      (0xdc00 + (c.toNat - 0x10000) % 1024) tail
      (by omega) (by omega) (by omega) (by omega)
    have hchar : 0x10000 +
        (0xd800 + (c.toNat - 0x10000) / 1024 - 0xd800) * 1024 +
        (0xdc00 + (c.toNat - 0x10000) % 1024 - 0xdc00) = c.toNat := by
      have := Nat.div_add_mod (c.toNat - 0x10000) 1024
      omega
    rw [hchar] at hdec
    have hsplit :
        ('\\' :: 'u' :: hex4 (0xd800 + (c.toNat - 0x10000) / 1024) ++
          '\\' :: 'u' :: hex4 (0xdc00 + (c.toNat - 0x10000) % 1024)) ++
            tail =
        '\\' :: ('u' :: (hex4 (0xd800 + (c.toNat - 0x10000) / 1024) ++
          '\\' :: 'u' ::
            (hex4 (0xdc00 + (c.toNat - 0x10000) % 1024) ++ tail))) := by
      simp
    rw [hsplit, psb_cons_esc fuel _ _ _ hdec, Char.ofNat_toNat]

/-- Parsing the escaped body of a string recovers the original characters. -/
theorem psb_escapeChars (cs : List Char) :
    ∀ fuel rest, cs.length < fuel →
      parseStringBody fuel (escapeChars cs ++ '"' :: rest) =
        some (cs, rest) := by
  induction cs with
  | nil =>
    intro fuel rest h
    cases fuel with
    | zero => omega
    | succ g => simp [escapeChars, parseStringBody]
  | cons c cs ih =>
    intro fuel rest h
    cases fuel with
    | zero => omega
    | succ g =>
      rw [escapeChars, List.append_assoc, psb_escape_step c _ g,
        ih g rest (by simpa using h)]
      rfl

theorem escapeChar_length_pos (c : Char) : 1 ≤ (escapeChar c).length := by
  rw [escapeChar]
  split_ifs <;> simp [hex4]

theorem escapeChars_length_ge (cs : List Char) :
    cs.length ≤ (escapeChars cs).length := by
  induction cs with
  | nil => simp [escapeChars]
  | cons c cs ih =>
    rw [escapeChars, List.length_append]
    have := escapeChar_length_pos c
    simp only [List.length_cons]
    omega

theorem digit_not_special (c : Char) (hd : c.isDigit = true) :
    ¬c = '"' ∧ ¬c = '[' ∧ ¬c = '\x7b' ∧ ¬c = 't' ∧ ¬c = 'f' ∧
      ¬c = 'n' ∧ ¬c = '-' := by
  have hb := isDigit_toNat c hd
  refine ⟨?_, ?_, ?_, ?_, ?_, ?_, ?_⟩ <;>
    (intro h; subst h; revert hb; decide)

theorem digit_head_ok (c : Char) (hd : c.isDigit = true) :
    isJsonWs c = false ∧ ¬c = ']' ∧ ¬c = '\x7d' := by
  have hb := isDigit_toNat c hd
  refine ⟨?_, ?_, ?_⟩
  · simp only [isJsonWs, Bool.or_eq_false_iff, beq_eq_false_iff_ne, ne_eq]
    refine ⟨⟨⟨?_, ?_⟩, ?_⟩, ?_⟩ <;> (intro h; subst h; revert hb; decide)
  · intro h; subst h; revert hb; decide
  · intro h; subst h; revert hb; decide

theorem encodeValue_head (v : Value) :
    ∃ c t, encodeValue v = c :: t ∧ isJsonWs c = false ∧
      ¬c = ']' ∧ ¬c = '\x7d' := by
  cases v
  case int n =>
    rw [encodeValue, encodeInt]
    by_cases h : n < 0
    · refine ⟨'-', _, by rw [if_pos h], ?_, ?_, ?_⟩ <;> decide
    · rw [if_neg h]
      obtain ⟨c, t, hct, hd⟩ := natDigits_head n.toNat
      obtain ⟨hws, hbr, hbc⟩ := digit_head_ok c hd
      exact ⟨c, t, hct, hws, hbr, hbc⟩
  case bool b => cases b <;> (refine ⟨_, _, rfl, ?_, ?_, ?_⟩ <;> decide)
  all_goals refine ⟨_, _, rfl, ?_, ?_, ?_⟩ <;> decide

theorem encodeItems_head (vs : List Value) (h : vs ≠ []) :
    ∃ c t, encodeItems vs = c :: t ∧ isJsonWs c = false ∧
      ¬c = ']' ∧ ¬c = '\x7d' := by
  match vs with
  | [] => exact absurd rfl h
  | [v] =>
    obtain ⟨c, t, hct, p1, p2, p3⟩ := encodeValue_head v
    exact ⟨c, t, by rw [encodeItems, hct], p1, p2, p3⟩
  | v :: w :: vs =>
    obtain ⟨c, t, hct, p1, p2, p3⟩ := encodeValue_head v
    refine ⟨c, t ++ ',' :: ' ' :: encodeItems (w :: vs), ?_, p1, p2, p3⟩
    have he : encodeItems (v :: w :: vs) =
        encodeValue v ++ ',' :: ' ' :: encodeItems (w :: vs) := by
      simp [encodeItems]
    rw [he, hct]
    rfl

theorem encodePairs_head (kvs : List (String × Value)) (h : kvs ≠ []) :
    ∃ t, encodePairs kvs = '"' :: t := by
  match kvs with
  | [] => exact absurd rfl h
  | [(k, v)] => exact ⟨_, rfl⟩
  | (k, v) :: q :: kvs => exact ⟨_, rfl⟩

theorem skipWs_not_ws (c : Char) (cs : List Char) (h : isJsonWs c = false) :
    skipWs (c :: cs) = c :: cs := by
  simp [skipWs, h]

theorem skipWs_space (cs : List Char) : skipWs (' ' :: cs) = skipWs cs := by
  simp [skipWs, isJsonWs]

theorem skipWs_encodeValue (v : Value) (t : List Char) :
    skipWs (encodeValue v ++ t) = encodeValue v ++ t := by
  obtain ⟨c, u, hcu, hws, _, _⟩ := encodeValue_head v
  rw [hcu, List.cons_append, skipWs_not_ws c (u ++ t) hws]

theorem skipWs_encodeItems (vs : List Value) (h : vs ≠ []) (t : List Char) :
    skipWs (encodeItems vs ++ t) = encodeItems vs ++ t := by
  obtain ⟨c, u, hcu, hws, _, _⟩ := encodeItems_head vs h
  rw [hcu, List.cons_append, skipWs_not_ws c (u ++ t) hws]

theorem skipWs_encodePairs (kvs : List (String × Value)) (h : kvs ≠ [])
    (t : List Char) :
    skipWs (encodePairs kvs ++ t) = encodePairs kvs ++ t := by
  obtain ⟨u, hu⟩ := encodePairs_head kvs h
  rw [hu, List.cons_append, skipWs_not_ws '"' (u ++ t) (by decide)]

theorem parseValue_succ (g : Nat) :
    parseValue (g + 1) =
      parseValueF (parseValue g) (parseItems g) (parsePairs g) := rfl

theorem parseItems_succ (g : Nat) :
    parseItems (g + 1) = parseItemsF (parseValue g) (parseItems g) := rfl

theorem parsePairs_succ (g : Nat) :
    parsePairs (g + 1) = parsePairsF (parseValue g) (parsePairs g) := rfl

theorem pv_null (g : Nat) (rest : List Char) :
    parseValue (g + 1) (encodeValue Value.null ++ rest) =
      some (Value.null, rest) := by
  rw [encodeValue, parseValue_succ]
  simp only [parseValueF, List.cons_append, List.nil_append]
  simp only [Char.reduceEq, reduceIte]

theorem pv_bool (g : Nat) (rest : List Char) (b : Bool) :
    parseValue (g + 1) (encodeValue (Value.bool b) ++ rest) =
      some (Value.bool b, rest) := by
  cases b <;>
  · rw [encodeValue, parseValue_succ]
    simp only [parseValueF, List.cons_append, List.nil_append]
    simp only [Char.reduceEq, reduceIte]

theorem pv_int (g : Nat) (rest : List Char) (n : Int)
    (hdelim : delimOk rest = true) :
    parseValue (g + 1) (encodeValue (Value.int n) ++ rest) =
      some (Value.int n, rest) := by
  by_cases hn : n < 0
  · rw [encodeValue, encodeInt, if_pos hn, parseValue_succ]
    simp only [parseValueF, List.cons_append]
    simp only [Char.reduceEq, reduceIte]
    rw [parseNat_digits n.natAbs rest hdelim]
    have hneg : (-(n.natAbs : Int)) = n := by omega
    simp only [hneg]
  · rw [encodeValue, encodeInt, if_neg hn, parseValue_succ]
    obtain ⟨c, t, hct, hd⟩ := natDigits_head n.toNat
    obtain ⟨q1, q2, q3, q4, q5, q6, q7⟩ := digit_not_special c hd
    rw [hct]
    simp only [parseValueF, List.cons_append]
    simp only [if_neg q1, if_neg q2, if_neg q3, if_neg q4, if_neg q5,
      if_neg q6, if_neg q7]
    rw [← List.cons_append, ← hct, parseNat_digits n.toNat rest hdelim]
    simp only [Int.toNat_of_nonneg (le_of_not_lt hn)]

theorem pv_str (g : Nat) (rest : List Char) (s : String) :
    parseValue (g + 1) (encodeValue (Value.str s) ++ rest) =
      some (Value.str s, rest) := by
  rw [encodeValue, encodeString, parseValue_succ]
  simp only [parseValueF, List.cons_append, List.append_assoc,
    List.singleton_append, List.nil_append]
  simp only [Char.reduceEq, reduceIte]
  have hf : s.data.length < (escapeChars s.data ++ '"' :: rest).length + 1 := by
    have := escapeChars_length_ge s.data
    simp only [List.length_append, List.length_cons]
    omega
  rw [psb_escapeChars s.data _ rest hf]

theorem pv_list_nil (g : Nat) (rest : List Char) :
    parseValue (g + 1) (encodeValue (Value.list []) ++ rest) =
      some (Value.list [], rest) := by
  rw [encodeValue, parseValue_succ]
  simp only [parseValueF, encodeItems, List.nil_append, List.cons_append,
    List.singleton_append]
  simp only [Char.reduceEq, reduceIte]
  rw [skipWs_not_ws ']' rest (by decide)]
  simp only [Char.reduceEq, reduceIte]

theorem pv_dict_nil (g : Nat) (rest : List Char) :
    parseValue (g + 1) (encodeValue (Value.dict []) ++ rest) =
      some (Value.dict [], rest) := by
  rw [encodeValue, parseValue_succ]
  simp only [parseValueF, encodePairs, List.nil_append, List.cons_append,
    List.singleton_append]
  simp only [Char.reduceEq, reduceIte]
  rw [skipWs_not_ws '\x7d' rest (by decide)]
  simp only [Char.reduceEq, reduceIte]

theorem pv_list_cons (g : Nat) (rest : List Char) (vs : List Value)
    (hne : vs ≠ [])
    (hitems : parseItems g (encodeItems vs ++ ']' :: rest) =
      some (vs, rest)) :
    parseValue (g + 1) (encodeValue (Value.list vs) ++ rest) =
      some (Value.list vs, rest) := by
  rw [encodeValue, parseValue_succ]
  simp only [parseValueF, List.cons_append, List.append_assoc,
    List.singleton_append]
  simp only [Char.reduceEq, reduceIte]
  rw [skipWs_encodeItems vs hne]
  obtain ⟨c, t, hct, hws, hbr, hbc⟩ := encodeItems_head vs hne
  rw [hct]
  simp only [List.cons_append, List.nil_append, if_neg hbr]
  rw [← List.cons_append, ← hct, hitems]

theorem pv_dict_cons (g : Nat) (rest : List Char)
    (kvs : List (String × Value)) (hne : kvs ≠ [])
    (hpairs : parsePairs g (encodePairs kvs ++ '\x7d' :: rest) =
      some (kvs, rest)) :
    parseValue (g + 1) (encodeValue (Value.dict kvs) ++ rest) =
      some (Value.dict kvs, rest) := by
  rw [encodeValue, parseValue_succ]
  simp only [parseValueF, List.cons_append, List.append_assoc,
    List.singleton_append]
  simp only [Char.reduceEq, reduceIte]
  rw [skipWs_encodePairs kvs hne]
  obtain ⟨t, ht⟩ := encodePairs_head kvs hne
  rw [ht]
  simp only [List.cons_append, List.nil_append]
  simp only [Char.reduceEq, reduceIte]
  rw [← List.cons_append, ← ht, hpairs]

theorem string_mk_data (k : String) : String.mk k.data = k := rfl

theorem pi_single (g : Nat) (rest : List Char) (v : Value)
    (hv : parseValue g (encodeValue v ++ ']' :: rest) =
      some (v, ']' :: rest)) :
    parseItems (g + 1) (encodeItems [v] ++ ']' :: rest) =
      some ([v], rest) := by
  rw [parseItems_succ]
  simp only [parseItemsF, encodeItems]
  rw [hv]
  simp only [skipWs_not_ws ']' rest (by decide), Char.reduceEq, reduceIte]

theorem pi_cons (g : Nat) (rest : List Char) (v : Value) (vs : List Value)
    (hne : vs ≠ [])
    (hv : parseValue g
        (encodeValue v ++ ',' :: ' ' :: (encodeItems vs ++ ']' :: rest)) =
      some (v, ',' :: ' ' :: (encodeItems vs ++ ']' :: rest)))
    (hrest : parseItems g (encodeItems vs ++ ']' :: rest) =
      some (vs, rest)) :
    parseItems (g + 1) (encodeItems (v :: vs) ++ ']' :: rest) =
      some (v :: vs, rest) := by
  have he : encodeItems (v :: vs) =
      encodeValue v ++ ',' :: ' ' :: encodeItems vs := by
    cases vs with
    | nil => exact absurd rfl hne
    | cons w ws => simp [encodeItems]
  rw [he, parseItems_succ]
  simp only [parseItemsF, List.append_assoc, List.cons_append]
  rw [hv]
  simp only [skipWs_not_ws ',' _ (by decide), Char.reduceEq, reduceIte]
  rw [skipWs_space, skipWs_encodeItems vs hne, hrest]

theorem pp_single (g : Nat) (rest : List Char) (k : String) (v : Value)
    (hv : parseValue g (encodeValue v ++ '\x7d' :: rest) =
      some (v, '\x7d' :: rest)) :
    parsePairs (g + 1) (encodePairs [(k, v)] ++ '\x7d' :: rest) =
      some ([(k, v)], rest) := by
  rw [parsePairs_succ]
  simp only [parsePairsF, encodePairs, encodeString, List.cons_append,
    List.append_assoc, List.singleton_append, List.nil_append]
  simp only [Char.reduceEq, reduceIte]
  have hf : k.data.length <
      (escapeChars k.data ++
        '"' :: (':' :: ' ' :: (encodeValue v ++ '\x7d' :: rest))).length +
        1 := by
    have := escapeChars_length_ge k.data
    simp only [List.length_append, List.length_cons]
    omega
  rw [psb_escapeChars k.data _ _ hf]
  simp only [skipWs_not_ws ':' _ (by decide), Char.reduceEq, reduceIte]
  rw [skipWs_space, skipWs_encodeValue v, hv]
  simp only [skipWs_not_ws '\x7d' rest (by decide), Char.reduceEq, reduceIte,
    string_mk_data]

theorem pp_cons (g : Nat) (rest : List Char) (k : String) (v : Value)
    (kvs : List (String × Value)) (hne : kvs ≠ [])
    (hv : parseValue g
        (encodeValue v ++
          ',' :: ' ' :: (encodePairs kvs ++ '\x7d' :: rest)) =
      some (v, ',' :: ' ' :: (encodePairs kvs ++ '\x7d' :: rest)))
    (hrest : parsePairs g (encodePairs kvs ++ '\x7d' :: rest) =
      some (kvs, rest)) :
    parsePairs (g + 1) (encodePairs ((k, v) :: kvs) ++ '\x7d' :: rest) =
      some ((k, v) :: kvs, rest) := by
  have he : encodePairs ((k, v) :: kvs) =
      encodeString k.data ++ ':' :: ' ' :: encodeValue v ++
        ',' :: ' ' :: encodePairs kvs := by
    cases kvs with
    | nil => exact absurd rfl hne
    | cons q qs => simp [encodePairs]
  rw [he, parsePairs_succ]
  simp only [parsePairsF, encodeString, List.cons_append, List.append_assoc,
    List.singleton_append, List.nil_append]
  simp only [Char.reduceEq, reduceIte]
  have hf : k.data.length <
      (escapeChars k.data ++
        '"' :: (':' :: ' ' ::
          (encodeValue v ++
            ',' :: ' ' :: (encodePairs kvs ++ '\x7d' :: rest)))).length +
        1 := by
    have := escapeChars_length_ge k.data
    simp only [List.length_append, List.length_cons]
    omega
  rw [psb_escapeChars k.data _ _ hf]
  simp only [skipWs_not_ws ':' _ (by decide), Char.reduceEq, reduceIte]
  rw [skipWs_space, skipWs_encodeValue v, hv]
  simp only [skipWs_not_ws ',' _ (by decide), Char.reduceEq, reduceIte]
  rw [skipWs_space, skipWs_encodePairs kvs hne, hrest]

/-- Parsing an encoded value (or item/entry list) with enough fuel recovers
exactly that value and leaves the rest of the input intact. -/
theorem parse_encode_master (N : Nat) :
    (∀ v : Value, sizeOf v ≤ N → ∀ fuel rest, fuelFor v ≤ fuel →
      delimOk rest = true →
      parseValue fuel (encodeValue v ++ rest) = some (v, rest)) ∧
    (∀ vs : List Value, vs ≠ [] → sizeOf vs ≤ N → ∀ fuel rest,
      fuelItems vs ≤ fuel →
      parseItems fuel (encodeItems vs ++ ']' :: rest) = some (vs, rest)) ∧
    (∀ kvs : List (String × Value), kvs ≠ [] → sizeOf kvs ≤ N →
      ∀ fuel rest, fuelPairs kvs ≤ fuel →
      parsePairs fuel (encodePairs kvs ++ '\x7d' :: rest) =
        some (kvs, rest)) := by
  induction N using Nat.strong_induction_on with
  | _ N IH =>
    refine ⟨?_, ?_, ?_⟩
    · intro v hsize fuel rest hfuel hdelim
      obtain ⟨g, rfl⟩ : ∃ g, fuel = g + 1 := by
        cases fuel with
        | zero =>
          exfalso
          cases v <;> simp [fuelFor] at hfuel
        | succ g => exact ⟨g, rfl⟩
      cases v with
      | null => exact pv_null g rest
      | bool b => exact pv_bool g rest b
      | int n => exact pv_int g rest n hdelim
      | str s => exact pv_str g rest s
      | list vs =>
        cases vs with
        | nil => exact pv_list_nil g rest
        | cons w ws =>
          have hsz : sizeOf (w :: ws) < N := by
            simp at hsize ⊢
            omega
          have hfl : fuelItems (w :: ws) ≤ g := by
            rw [fuelFor] at hfuel
            omega
          exact pv_list_cons g rest (w :: ws) (by simp)
            ((IH (sizeOf (w :: ws)) hsz).2.1 (w :: ws) (by simp) le_rfl
              g rest hfl)
      | dict kvs =>
        cases kvs with
        | nil => exact pv_dict_nil g rest
        | cons q qs =>
          have hsz : sizeOf (q :: qs) < N := by
            simp at hsize ⊢
            omega
          have hfl : fuelPairs (q :: qs) ≤ g := by
            rw [fuelFor] at hfuel
            omega
          exact pv_dict_cons g rest (q :: qs) (by simp)
            ((IH (sizeOf (q :: qs)) hsz).2.2 (q :: qs) (by simp) le_rfl
              g rest hfl)
    · intro vs hne hsize fuel rest hfuel
      cases vs with
      | nil => exact absurd rfl hne
      | cons v ws =>
        obtain ⟨g, rfl⟩ : ∃ g, fuel = g + 1 := by
          cases fuel with
          | zero =>
            exfalso
            simp [fuelItems] at hfuel
          | succ g => exact ⟨g, rfl⟩
        have hszv : sizeOf v < N := by
          simp at hsize
          omega
        have hfv : fuelFor v ≤ g := by
          rw [fuelItems] at hfuel
          omega
        cases ws with
        | nil =>
          exact pi_single g rest v
            ((IH (sizeOf v) hszv).1 v le_rfl g (']' :: rest) hfv rfl)
        | cons w ws2 =>
          have hszw : sizeOf (w :: ws2) < N := by
            simp at hsize ⊢
            omega
          have hfw : fuelItems (w :: ws2) ≤ g := by
            rw [fuelItems] at hfuel
            omega
          exact pi_cons g rest v (w :: ws2) (by simp)
            ((IH (sizeOf v) hszv).1 v le_rfl g
              (',' :: ' ' :: (encodeItems (w :: ws2) ++ ']' :: rest))
              hfv rfl)
            ((IH (sizeOf (w :: ws2)) hszw).2.1 (w :: ws2) (by simp) le_rfl
              g rest hfw)
    · intro kvs hne hsize fuel rest hfuel
      cases kvs with
      | nil => exact absurd rfl hne
      | cons q qs =>
        obtain ⟨k, v, rfl⟩ : ∃ k v, q = (k, v) := ⟨q.1, q.2, rfl⟩
        obtain ⟨g, rfl⟩ : ∃ g, fuel = g + 1 := by
          cases fuel with
          | zero =>
            exfalso
            simp [fuelPairs] at hfuel
          | succ g => exact ⟨g, rfl⟩
        have hszv : sizeOf v < N := by
          simp at hsize
          omega
        have hfv : fuelFor v ≤ g := by
          rw [fuelPairs] at hfuel
          omega
        cases qs with
        | nil =>
          exact pp_single g rest k v
            ((IH (sizeOf v) hszv).1 v le_rfl g ('\x7d' :: rest) hfv rfl)
        | cons q2 qs2 =>
          have hszw : sizeOf (q2 :: qs2) < N := by
            simp at hsize ⊢
            omega
          have hfw : fuelPairs (q2 :: qs2) ≤ g := by
            rw [fuelPairs] at hfuel
            omega
          exact pp_cons g rest k v (q2 :: qs2) (by simp)
            ((IH (sizeOf v) hszv).1 v le_rfl g
              (',' :: ' ' :: (encodePairs (q2 :: qs2) ++ '\x7d' :: rest))
              hfv rfl)
            ((IH (sizeOf (q2 :: qs2)) hszw).2.2 (q2 :: qs2) (by simp)
              le_rfl g rest hfw)

/-- The fuel needed for a value is at most its encoding's length (and one
more than it for item and entry lists). -/
theorem fuel_le_master (N : Nat) :
    (∀ v : Value, sizeOf v ≤ N → fuelFor v ≤ (encodeValue v).length) ∧
    (∀ vs : List Value, sizeOf vs ≤ N →
      fuelItems vs ≤ (encodeItems vs).length + 1) ∧
    (∀ kvs : List (String × Value), sizeOf kvs ≤ N →
      fuelPairs kvs ≤ (encodePairs kvs).length + 1) := by
  induction N using Nat.strong_induction_on with
  | _ N IH =>
    refine ⟨?_, ?_, ?_⟩
    · intro v hsize
      cases v with
      | null => simp [fuelFor, encodeValue]
      | bool b => cases b <;> simp [fuelFor, encodeValue]
      | str s => simp [fuelFor, encodeValue, encodeString]
      | int n =>
        have hfi : fuelFor (Value.int n) = 1 := by simp [fuelFor]
        rw [hfi, encodeValue, encodeInt]
        by_cases hn : n < 0
        · rw [if_pos hn]
          simp
        · rw [if_neg hn]
          obtain ⟨c, t, hct, _⟩ := natDigits_head n.toNat
          rw [hct]
          simp
      | list vs =>
        rw [fuelFor, encodeValue]
        cases vs with
        | nil => rw [fuelItems]; simp
        | cons w ws =>
          have hsz : sizeOf (w :: ws) < N := by
            simp at hsize ⊢
            omega
          have := (IH (sizeOf (w :: ws)) hsz).2.1 (w :: ws) le_rfl
          simp only [List.length_cons, List.length_append,
            List.length_singleton]
          omega
      | dict kvs =>
        rw [fuelFor, encodeValue]
        cases kvs with
        | nil => rw [fuelPairs]; simp
        | cons q qs =>
          have hsz : sizeOf (q :: qs) < N := by
            simp at hsize ⊢
            omega
          have := (IH (sizeOf (q :: qs)) hsz).2.2 (q :: qs) le_rfl
          simp only [List.length_cons, List.length_append,
            List.length_singleton]
          omega
    · intro vs hsize
      cases vs with
      | nil => rw [fuelItems]; simp
      | cons v ws =>
        have hszv : sizeOf v < N := by
          simp at hsize
          omega
        have hv := (IH (sizeOf v) hszv).1 v le_rfl
        rw [fuelItems]
        cases ws with
        | nil =>
          rw [fuelItems]
          simp only [encodeItems]
          omega
        | cons w ws2 =>
          have hszw : sizeOf (w :: ws2) < N := by
            simp at hsize ⊢
            omega
          have hw := (IH (sizeOf (w :: ws2)) hszw).2.1 (w :: ws2) le_rfl
          have he : encodeItems (v :: w :: ws2) =
              encodeValue v ++ ',' :: ' ' :: encodeItems (w :: ws2) := by
            simp [encodeItems]
          rw [he]
          simp only [List.length_append, List.length_cons]
          omega
    · intro kvs hsize
      cases kvs with
      | nil => rw [fuelPairs]; simp
      | cons q qs =>
        obtain ⟨k, v, rfl⟩ : ∃ k v, q = (k, v) := ⟨q.1, q.2, rfl⟩
        have hszv : sizeOf v < N := by
          simp at hsize
          omega
        have hv := (IH (sizeOf v) hszv).1 v le_rfl
        rw [fuelPairs]
        cases qs with
        | nil =>
          rw [fuelPairs]
          simp only [encodePairs, encodeString, List.length_append,
            List.length_cons]
          omega
        | cons q2 qs2 =>
          have hszw : sizeOf (q2 :: qs2) < N := by
            simp at hsize ⊢
            omega
          have hw := (IH (sizeOf (q2 :: qs2)) hszw).2.2 (q2 :: qs2) le_rfl
          have he : encodePairs ((k, v) :: q2 :: qs2) =
              encodeString k.data ++ ':' :: ' ' :: encodeValue v ++
                ',' :: ' ' :: encodePairs (q2 :: qs2) := by
            simp [encodePairs]
          rw [he]
          simp only [encodeString, List.length_append, List.length_cons]
          omega

/-- Decoding the textual JSON encoding of any modelled value recovers the
value. -/
theorem jsonLoads_jsonDumps (v : Value) :
    jsonLoads (jsonDumps v) = some v := by
  rw [jsonLoads, jsonDumps]
  have h1 : (String.mk (encodeValue v)).data = encodeValue v := rfl
  rw [h1]
  have hskip : skipWs (encodeValue v) = encodeValue v := by
    have := skipWs_encodeValue v []
    simpa using this
  rw [hskip]
  have hfuel : fuelFor v ≤ (encodeValue v).length + 1 := by
    have := (fuel_le_master (sizeOf v)).1 v le_rfl
    omega
  have hparse := (parse_encode_master (sizeOf v)).1 v le_rfl
    ((encodeValue v).length + 1) [] hfuel rfl
  rw [List.append_nil] at hparse
  rw [hparse]
  simp [skipWs]

/-- Claim C6: for every list- or mapping-valued field value, the Flattener
produces a textual (JSON) encoding whose decoding is exactly the original
structure — the encode-then-decode round trip is the identity on
collections. -/
theorem flatten_roundtrip (v : Value) (h : v.isCollection = true) :
    ∃ s, flatten_value v = Value.str s ∧ jsonLoads s = some v := by
  cases v with
  | list xs =>
    exact ⟨jsonDumps (Value.list xs), rfl, jsonLoads_jsonDumps _⟩
  | dict kvs =>
    exact ⟨jsonDumps (Value.dict kvs), rfl, jsonLoads_jsonDumps _⟩
  | null => simp [Value.isCollection] at h
  | bool b => simp [Value.isCollection] at h
  | int n => simp [Value.isCollection] at h
  | str s => simp [Value.isCollection] at h

/-- Claim C6 witness: the round trip at a concrete list value. -/
theorem flatten_roundtrip_witness :
    ∃ s, flatten_value (Value.list [Value.int 1, Value.str "a"]) =
        Value.str s ∧
      jsonLoads s = some (Value.list [Value.int 1, Value.str "a"]) :=
  flatten_roundtrip (Value.list [Value.int 1, Value.str "a"]) rfl
